import Mathlib

/-
  Verification of the dataset partitioning and distribution code in
  notebooks/utils/data_utils.py (functions split_dataset_indices and
  split_and_distribute).

  The allocation loop of split_dataset_indices (lines 36-44) is embedded
  with the per-site raw target `int(num_samples * ratio_vec[i] / total_ratio)`
  abstracted as a function `raw : Nat -> Int`: the clamping structure of the
  loop is independent of the weight computation, and the concrete weight
  vectors (uniform / linear / square) are embedded exactly over the rationals
  below.  Python list slicing, including its negative-index wrap-around, is
  embedded faithfully so that the behaviour of the index-group slicing
  (lines 49-54) on degenerate (negative) sizes is captured.
-/

namespace FedSplit

/-- Python `max` on two integers (kernel-reducible form). -/
def imax (a b : ℤ) : ℤ := if a ≤ b then b else a

/-- Python `min` on two integers (kernel-reducible form). -/
def imin (a b : ℤ) : ℤ := if a ≤ b then a else b

@[simp] theorem imax_eq (a b : ℤ) : imax a b = max a b := (max_def a b).symm

@[simp] theorem imin_eq (a b : ℤ) : imin a b = min a b := (min_def a b).symm

/-- The allocation loop of split_dataset_indices.  `allocAux raw steps i left`
performs `steps` iterations of the python loop `for i in range(num_sites-1)`
starting at loop counter `i` with `left` samples unallocated, then appends the
remainder.  At each iteration the clamp bound `num_sites - 1 - i` equals the
number of iterations still to run (the `steps+1` of the pattern). -/
def allocAux (raw : ℕ → ℤ) : ℕ → ℕ → ℤ → List ℤ
  | 0, _, left => [left]
  | steps+1, i, left =>
    let x : ℤ := imin (imax 1 (raw i)) (left - (steps + 1 : ℤ))
    x :: allocAux raw steps (i+1) (left - x)

/-- The list `split_sizes` as built by split_dataset_indices for `num_samples = N`,
`num_sites = M`: `M - 1` loop iterations, then the remainder is appended. -/
def splitSizes (N M : ℕ) (raw : ℕ → ℤ) : List ℤ :=
  allocAux raw (M - 1) 0 (N : ℤ)

/-- Weight of 0-indexed site `i` for split_method = "uniform": np.ones. -/
def uniformW (_i : ℕ) : ℚ := 1

/-- Weight of 0-indexed site `i` for split_method = "linear":
np.linspace(1, M, num=M) has value `i + 1` at index `i`. -/
def linearW (i : ℕ) : ℚ := (i : ℚ) + 1

/-- Weight of 0-indexed site `i` for split_method = "square":
np.square(np.linspace(1, M, num=M)). -/
def squareW (i : ℕ) : ℚ := ((i : ℚ) + 1) ^ 2

/-- The quantity `total_ratio = sum(ratio_vec)` for a weight function over `M` sites. -/
def totalW (w : ℕ → ℚ) (M : ℕ) : ℚ := ((List.range M).map w).sum

/-- The pre-clamp target share `int(num_samples * ratio_vec[i] / total_ratio)`
(int() truncation equals floor here since the quotient is nonnegative; numpy
float arithmetic is idealized as exact rational arithmetic). -/
def rawShare (w : ℕ → ℚ) (N M : ℕ) (i : ℕ) : ℤ :=
  ⌊(N : ℚ) * w i / totalW w M⌋

/-- Integer form of the uniform weights. -/
def uniformWZ (_i : ℕ) : ℕ := 1

/-- Integer form of the linear weights. -/
def linearWZ (i : ℕ) : ℕ := i + 1

/-- Integer form of the square weights. -/
def squareWZ (i : ℕ) : ℕ := (i + 1) * (i + 1)

/-- Integer form of `total_ratio` for integer weights. -/
def totalWZ (w : ℕ → ℕ) (M : ℕ) : ℕ := ((List.range M).map w).sum

/-- Executable integer form of the pre-clamp target share for the methods
whose weights are integers (uniform, linear, square): floor division of
`N * w i` by the total weight. -/
def rawShareZ (w : ℕ → ℕ) (N M i : ℕ) : ℤ :=
  ((N * w i : ℕ) : ℤ) / ((totalWZ w M : ℕ) : ℤ)

/-! Embedding of split_and_distribute (data_utils.py lines 64-229)

The function is embedded as a state-free trace semantics: the environment
`DistEnv` fixes the outcome of every external interaction (input lengths,
inventory existence, the ansible-inventory query, the fleet-wide delete and
recreate commands, and each per-client copy command), and the function
returns the ordered list of side effects it performed together with how the
run ended and which clients had a copy failure logged.  A copy command whose
remote process exits non-zero raises subprocess.CalledProcessError, modelled
by the corresponding `...Ok` field being false. -/

/-- One observable side effect of split_and_distribute. -/
inductive Eff where
  | queryInventory
  | writeShard (file : String)
  | deleteDir
  | createDir
  | copyTrain (client : String)
  | copyTest (client : String)
  deriving DecidableEq

/-- The environment: outcomes of all external interactions. -/
structure DistEnv where
  trainDataLen : ℕ
  trainLabelsLen : ℕ
  testDataLen : ℕ
  testLabelsLen : ℕ
  inventoryExists : Bool
  queryExitOk : Bool
  parseOk : Bool
  hostsPresent : Bool
  clients : List String
  deleteOk : Bool
  createOk : Bool
  copyTrainOk : String → Bool
  copyTestOk : String → Bool

/-- How a run of split_and_distribute ended.  Every constructor except
`completed` corresponds to one of the early `return` statements. -/
inductive RunExit where
  | trainMismatch
  | testMismatch
  | inventoryMissing
  | inventoryQueryFailed
  | inventoryParseFailed
  | hostsNotFound
  | emptyHostGroup
  | resetFailed
  | completed
  deriving DecidableEq

/-- Result of a run: the ordered effect trace, how the run ended, and the
clients for which a copy error was caught and logged to stderr. -/
structure RunResult where
  effects : List Eff
  exit : RunExit
  failedClients : List String
  deriving DecidableEq

/-- The two copy commands for one client (lines 217-225).  Both commands sit
in a single try block: if the train copy raises CalledProcessError the test
copy is never run for that client; either failure is caught and logged. -/
def runClientCopies (env : DistEnv) (c : String) : List Eff × Bool :=
  if env.copyTrainOk c then
    ([Eff.copyTrain c, Eff.copyTest c], !env.copyTestOk c)
  else
    ([Eff.copyTrain c], true)

/-- The per-client distribution loop (lines 193-225): each client is
processed in order; a caught failure is recorded and the loop continues. -/
def transferPhase (env : DistEnv) : List String → List Eff × List String
  | [] => ([], [])
  | c :: rest =>
    let rc := runClientCopies env c
    let rr := transferPhase env rest
    (rc.1 ++ rr.1, (if rc.2 then [c] else []) ++ rr.2)

/-- The shard files written to the temporary directory (lines 149-160):
one `<client>_train.pt` per client, then the shared `test_data.pt`. -/
def shardWrites (clients : List String) : List Eff :=
  clients.map (fun c => Eff.writeShard (c ++ "_train.pt")) ++
    [Eff.writeShard "test_data.pt"]

/-- split_and_distribute (lines 64-229), as a trace semantics over `DistEnv`.
The branch order mirrors the source exactly: input-length validation,
inventory-file existence, the inventory query and its parsing, host-group
extraction, empty-group check, local shard writes, the fleet-wide delete and
recreate (one try block, failure fatal), then the per-client copy loop. -/
def splitAndDistribute (env : DistEnv) : RunResult :=
  if env.trainDataLen ≠ env.trainLabelsLen then
    ⟨[], RunExit.trainMismatch, []⟩
  else if env.testDataLen ≠ env.testLabelsLen then
    ⟨[], RunExit.testMismatch, []⟩
  else if env.inventoryExists = false then
    ⟨[], RunExit.inventoryMissing, []⟩
  else if env.queryExitOk = false then
    ⟨[Eff.queryInventory], RunExit.inventoryQueryFailed, []⟩
  else if env.parseOk = false then
    ⟨[Eff.queryInventory], RunExit.inventoryParseFailed, []⟩
  else if env.hostsPresent = false then
    ⟨[Eff.queryInventory], RunExit.hostsNotFound, []⟩
  else if env.clients.length = 0 then
    ⟨[Eff.queryInventory], RunExit.emptyHostGroup, []⟩
  else if env.deleteOk = false then
    ⟨[Eff.queryInventory] ++ shardWrites env.clients ++ [Eff.deleteDir],
      RunExit.resetFailed, []⟩
  else if env.createOk = false then
    ⟨[Eff.queryInventory] ++ shardWrites env.clients ++
        [Eff.deleteDir, Eff.createDir],
      RunExit.resetFailed, []⟩
  else
    ⟨[Eff.queryInventory] ++ shardWrites env.clients ++
        [Eff.deleteDir, Eff.createDir] ++ (transferPhase env env.clients).1,
      RunExit.completed,
      (transferPhase env env.clients).2⟩

/-- The final user-visible summary line: the source prints the same
unconditional success message whenever the copy loop finishes (line 227),
and no summary otherwise. -/
def summaryLine (r : RunResult) : Option String :=
  if r.exit = RunExit.completed then
    some "Successfully distributed all files."
  else none

/-- The run gets past validation, inventory resolution and shard writing,
reaching the fleet-wide reset phase. -/
def ReachesReset (env : DistEnv) : Prop :=
  env.trainDataLen = env.trainLabelsLen ∧
  env.testDataLen = env.testLabelsLen ∧
  env.inventoryExists = true ∧
  env.queryExitOk = true ∧
  env.parseOk = true ∧
  env.hostsPresent = true ∧
  env.clients ≠ []

/-- The run additionally survives the reset phase, reaching the per-client
transfer loop. -/
def ReachesTransfer (env : DistEnv) : Prop :=
  ReachesReset env ∧ env.deleteOk = true ∧ env.createOk = true

instance (env : DistEnv) : Decidable (ReachesReset env) := by
  unfold ReachesReset; infer_instance

instance (env : DistEnv) : Decidable (ReachesTransfer env) := by
  unfold ReachesTransfer; infer_instance

/-- Scenario-E style environment: five clients, the copy jobs of client s3
fail (its remote copy command exits non-zero), everything else succeeds. -/
def envE : DistEnv :=
  ⟨4, 4, 2, 2, true, true, true, true, ["s1", "s2", "s3", "s4", "s5"],
    true, true, fun c => !(c == "s3"), fun _ => true⟩

/-- Two clients, siteA's private-shard (train) copy fails, every test copy
would succeed. -/
def envC4 : DistEnv :=
  ⟨4, 4, 2, 2, true, true, true, true, ["siteA", "siteB"],
    true, true, fun c => !(c == "siteA"), fun _ => true⟩

/-- Two clients, every copy succeeds. -/
def envAllOk : DistEnv :=
  ⟨4, 4, 2, 2, true, true, true, true, ["siteA", "siteB"],
    true, true, fun _ => true, fun _ => true⟩

/-- Scenario-D style environment: the fleet-wide delete command fails. -/
def envD : DistEnv :=
  ⟨4, 4, 2, 2, true, true, true, true, ["s1", "s2"],
    false, true, fun _ => true, fun _ => true⟩

/-- Mismatched input: 3 training samples but 4 training labels. -/
def envMis : DistEnv :=
  ⟨3, 4, 2, 2, true, true, true, true, ["s1"],
    true, true, fun _ => true, fun _ => true⟩

theorem totalW_cast (w : ℕ → ℕ) (M : ℕ) :
    totalW (fun j => (w j : ℚ)) M = ((totalWZ w M : ℕ) : ℚ) := by
  unfold totalW totalWZ
  rw [Nat.cast_list_sum, List.map_map]
  rfl

theorem rawShareZ_eq (w : ℕ → ℕ) (N M i : ℕ) :
    rawShareZ w N M i = rawShare (fun j => (w j : ℚ)) N M i := by
  unfold rawShareZ rawShare
  have h1 : (N : ℚ) * ((w i : ℕ) : ℚ) = (((N * w i : ℕ) : ℤ) : ℚ) := by
    push_cast; ring
  rw [totalW_cast, h1, Rat.floor_intCast_div_natCast]

theorem uniformW_cast : ∀ i, uniformW i = ((uniformWZ i : ℕ) : ℚ) := by
  intro i; simp [uniformW, uniformWZ]

theorem linearW_cast : ∀ i, linearW i = ((linearWZ i : ℕ) : ℚ) := by
  intro i; simp [linearW, linearWZ]

theorem squareW_cast : ∀ i, squareW i = ((squareWZ i : ℕ) : ℚ) := by
  intro i; unfold squareW squareWZ; push_cast; ring

/-- Normalization of a python slice bound for a list of length `n`:
negative indices count from the end (clamped at 0), nonnegative ones are
clamped at `n`. -/
def pyIdx (n : ℕ) (i : ℤ) : ℕ :=
  if i < 0 then ((n : ℤ) + i).toNat else if i.toNat ≤ n then i.toNat else n

/-- Python slice `l[start:stop]`. -/
def pySlice {α : Type} (l : List α) (start stop : ℤ) : List α :=
  (l.take (pyIdx l.length stop)).drop (pyIdx l.length start)

/-- The slicing loop of split_dataset_indices (lines 49-54): successive
slices `indices[current_idx : current_idx + size]`, `current_idx` advancing
by `size` (which may be negative). -/
def sliceRuns {α : Type} (l : List α) : List ℤ → ℤ → List (List α)
  | [], _ => []
  | s :: rest, cur => pySlice l cur (cur + s) :: sliceRuns l rest (cur + s)

/-- The list `client_indices` as returned by split_dataset_indices, for a given
shuffled index list `l` and the computed `split_sizes`. -/
def clientIndices {α : Type} (l : List α) (sizes : List ℤ) : List (List α) :=
  sliceRuns l sizes 0

/-- split_dataset_indices, parameterized by the result `perm` of the
np.random.shuffle of np.arange(num_samples). -/
def splitDatasetIndices (perm : List ℕ) (M : ℕ) (raw : ℕ → ℤ) : List (List ℕ) :=
  clientIndices perm (splitSizes perm.length M raw)

theorem allocAux_sum (raw : ℕ → ℤ) :
    ∀ (steps i : ℕ) (left : ℤ), (allocAux raw steps i left).sum = left := by
  intro steps
  induction steps with
  | zero => intro i left; simp [allocAux]
  | succ n ih => intro i left; simp [allocAux, ih]

theorem allocAux_length (raw : ℕ → ℤ) :
    ∀ (steps i : ℕ) (left : ℤ), (allocAux raw steps i left).length = steps + 1 := by
  intro steps
  induction steps with
  | zero => intro i left; simp [allocAux]
  | succ n ih => intro i left; simp [allocAux, ih]

theorem allocAux_one_le (raw : ℕ → ℤ) :
    ∀ (steps i : ℕ) (left : ℤ), (steps : ℤ) + 1 ≤ left →
      ∀ x ∈ allocAux raw steps i left, 1 ≤ x := by
  intro steps
  induction steps with
  | zero =>
    intro i left h x hx
    simp [allocAux] at hx
    omega
  | succ n ih =>
    intro i left h x hx
    simp only [allocAux, imin_eq, imax_eq, List.mem_cons] at hx
    rcases hx with hx | hx
    · have h1 : (1 : ℤ) ≤ max 1 (raw i) := le_max_left _ _
      have h2 : (1 : ℤ) ≤ left - (n + 1 : ℤ) := by push_cast at h ⊢; omega
      subst hx
      exact le_min h1 h2
    · apply ih (i+1) _ _ x hx
      have : min (max 1 (raw i)) (left - (n + 1 : ℤ)) ≤ left - (n + 1 : ℤ) :=
        min_le_right _ _
      push_cast at h ⊢
      omega

theorem allocAux_replicate (raw : ℕ → ℤ) :
    ∀ (steps i : ℕ), allocAux raw steps i ((steps : ℤ) + 1) =
      List.replicate (steps + 1) 1 := by
  intro steps
  induction steps with
  | zero => intro i; simp [allocAux]
  | succ n ih =>
    intro i
    have hx : min (max 1 (raw i)) (((n : ℤ) + 1 + 1) - ((n : ℤ) + 1)) = 1 := by
      have h2 : (((n : ℤ) + 1 + 1) - ((n : ℤ) + 1)) = 1 := by ring
      rw [h2]
      exact min_eq_right (le_max_left _ _)
    simp only [allocAux, imin_eq, imax_eq, List.replicate_succ]
    push_cast
    push_cast at hx
    rw [hx]
    have h3 : ((n : ℤ) + 1 + 1) - 1 = (n : ℤ) + 1 := by ring
    rw [h3, ih (i+1), List.replicate_succ]

/-- The ℚ-valued uniform weight function is the cast of its integer form. -/
theorem uniformW_fun : uniformW = fun j => ((uniformWZ j : ℕ) : ℚ) :=
  funext uniformW_cast

/-- The ℚ-valued linear weight function is the cast of its integer form. -/
theorem linearW_fun : linearW = fun j => ((linearWZ j : ℕ) : ℚ) :=
  funext linearW_cast

/-- The ℚ-valued square weight function is the cast of its integer form. -/
theorem squareW_fun : squareW = fun j => ((squareWZ j : ℕ) : ℚ) :=
  funext squareW_cast

theorem rawShare_eq_Z (w : ℕ → ℕ) (N M : ℕ) :
    rawShare (fun j => ((w j : ℕ) : ℚ)) N M = rawShareZ w N M :=
  funext fun i => (rawShareZ_eq w N M i).symm

/-- Sanity check matching the spec Scenario B: 10 samples over 3 sites,
uniform weights, give shares [3, 3, 4]. -/
theorem scenarioB_uniform : splitSizes 10 3 (rawShareZ uniformWZ 10 3) = [3, 3, 4] := by
  decide

/-- Concrete evaluation: square weights at N = 8, M = 7. -/
theorem square_8_7_eval : splitSizes 8 7 (rawShareZ squareWZ 8 7) = [1, 1, 1, 1, 1, 2, 1] := by
  decide

/-- Concrete evaluation: uniform weights at N = 2, M = 4 (N < M). -/
theorem uniform_2_4_eval : splitSizes 2 4 (rawShareZ uniformWZ 2 4) = [-1, 1, 1, 1] := by
  decide

/-- Concrete evaluation of the slicing on the degenerate N = 2, M = 4 sizes. -/
theorem uniform_2_4_groups_eval :
    clientIndices [0, 1] (splitSizes 2 4 (rawShareZ uniformWZ 2 4)) =
      [[0], [], [0], [1]] := by decide

theorem sliceRuns_length {α : Type} (l : List α) :
    ∀ (sizes : List ℤ) (c : ℤ), (sliceRuns l sizes c).length = sizes.length := by
  intro sizes
  induction sizes with
  | nil => intro c; simp [sliceRuns]
  | cons s rest ih => intro c; simp [sliceRuns, ih]

theorem pySlice_eq_drop_take {α : Type} (l : List α) (c s : ℤ)
    (hc : 0 ≤ c) (hs : 0 ≤ s) (hcs : c + s ≤ l.length) :
    pySlice l c (c + s) = (l.drop c.toNat).take s.toNat := by
  unfold pySlice pyIdx
  have h1 : ¬ (c + s < 0) := by omega
  have h2 : (c + s).toNat ≤ l.length := by rw [Int.toNat_le]; omega
  have h3 : ¬ (c < 0) := by omega
  have h4 : c.toNat ≤ l.length := by rw [Int.toNat_le]; omega
  rw [if_neg h1, if_pos h2, if_neg h3, if_pos h4]
  rw [List.drop_take]
  congr 1
  omega

theorem sliceRuns_spec {α : Type} (l : List α) :
    ∀ (sizes : List ℤ) (c : ℤ), 0 ≤ c → (∀ s ∈ sizes, 0 ≤ s) →
      c + sizes.sum ≤ l.length →
      (sliceRuns l sizes c).map List.length = sizes.map Int.toNat ∧
      (sliceRuns l sizes c).flatten =
        (l.drop c.toNat).take sizes.sum.toNat := by
  intro sizes
  induction sizes with
  | nil =>
    intro c _ _ _
    simp [sliceRuns]
  | cons s rest ih =>
    intro c hc hnn hfit
    have hs : 0 ≤ s := hnn s (List.mem_cons_self s rest)
    have hrest : ∀ x ∈ rest, 0 ≤ x := fun x hx => hnn x (List.mem_cons_of_mem s hx)
    have hrsum : 0 ≤ rest.sum := List.sum_nonneg hrest
    have hsum : (s :: rest).sum = s + rest.sum := by simp
    have hcs : c + s ≤ l.length := by rw [hsum] at hfit; omega
    have hslice : pySlice l c (c + s) = (l.drop c.toNat).take s.toNat :=
      pySlice_eq_drop_take l c s hc hs hcs
    obtain ⟨ih1, ih2⟩ := ih (c + s) (by omega) hrest (by rw [hsum] at hfit; omega)
    constructor
    · simp only [sliceRuns, List.map_cons, ih1, hslice]
      congr 1
      rw [List.length_take, List.length_drop]
      have h1 : s.toNat ≤ l.length - c.toNat := by omega
      omega
    · simp only [sliceRuns, List.flatten_cons, ih2, hslice]
      have h2 : (c + s).toNat = c.toNat + s.toNat := Int.toNat_add hc hs
      have h3 : (s :: rest).sum.toNat = s.toNat + rest.sum.toNat := by
        rw [hsum, Int.toNat_add hs hrsum]
      rw [h2, h3, ← List.drop_drop, List.take_add]

/-- C1: for every total sample count N and site count M with M ≥ 1 and N ≥ M,
and every per-site raw target function (covering every recognized split
method, whose raw targets are some integer-valued function of the site
index), the share vector built by split_dataset_indices has length exactly M,
its entries sum exactly to N, and every entry is at least 1. -/
theorem splitSizes_complete (raw : ℕ → ℤ) (N M : ℕ)
    (hM : 1 ≤ M) (hMN : M ≤ N) :
    (splitSizes N M raw).length = M ∧
    (splitSizes N M raw).sum = (N : ℤ) ∧
    ∀ x ∈ splitSizes N M raw, 1 ≤ x := by
  unfold splitSizes
  refine ⟨?_, allocAux_sum raw _ _ _, ?_⟩
  · rw [allocAux_length]; omega
  · exact allocAux_one_le raw _ _ _ (by omega)

/-- Witness for C1 at N = 10, M = 3 with the uniform raw targets. -/
theorem splitSizes_complete_witness :
    (splitSizes 10 3 (rawShareZ uniformWZ 10 3)).length = 3 ∧
    (splitSizes 10 3 (rawShareZ uniformWZ 10 3)).sum = (10 : ℤ) ∧
    ∀ x ∈ splitSizes 10 3 (rawShareZ uniformWZ 10 3), 1 ≤ x :=
  splitSizes_complete (rawShareZ uniformWZ 10 3) 10 3 (by decide) (by decide)

/-- C10: for every N ≥ 0 and M ≥ 1 and every raw target function (hence every
recognized split method) — with no precondition N ≥ M — the share vector sums
exactly to N, and it equals its first M-1 entries followed by exactly the
remainder N minus their sum (the last site absorbs the remainder). -/
theorem splitSizes_sum_eq (raw : ℕ → ℤ) (N M : ℕ) (_hM : 1 ≤ M) :
    (splitSizes N M raw).sum = (N : ℤ) ∧
    splitSizes N M raw =
      (splitSizes N M raw).dropLast ++
        [(N : ℤ) - ((splitSizes N M raw).dropLast).sum] := by
  have hsum : (splitSizes N M raw).sum = (N : ℤ) := allocAux_sum raw _ _ _
  refine ⟨hsum, ?_⟩
  have hne : splitSizes N M raw ≠ [] := by
    have := allocAux_length raw (M - 1) 0 (N : ℤ)
    intro h
    rw [splitSizes] at h
    rw [h] at this
    simp at this
  have hsplit := List.dropLast_append_getLast hne
  have hsum2 : ((splitSizes N M raw).dropLast).sum +
      (splitSizes N M raw).getLast hne = (N : ℤ) := by
    have := congrArg List.sum hsplit
    simp only [List.sum_append, List.sum_cons, List.sum_nil, add_zero] at this
    rw [this, hsum]
  have hlast : (splitSizes N M raw).getLast hne =
      (N : ℤ) - ((splitSizes N M raw).dropLast).sum := by omega
  conv_lhs => rw [← hsplit]
  rw [hlast]

/-- Witness for C10 at N = 2, M = 4 (a degenerate N < M case) with the
uniform raw targets. -/
theorem splitSizes_sum_eq_witness :
    (splitSizes 2 4 (rawShareZ uniformWZ 2 4)).sum = (2 : ℤ) ∧
    splitSizes 2 4 (rawShareZ uniformWZ 2 4) =
      (splitSizes 2 4 (rawShareZ uniformWZ 2 4)).dropLast ++
        [(2 : ℤ) - ((splitSizes 2 4 (rawShareZ uniformWZ 2 4)).dropLast).sum] :=
  splitSizes_sum_eq (rawShareZ uniformWZ 2 4) 2 4 (by decide)

/-- The counterexample to C7 as stated: for the recognized method "uniform"
at N = 2 < M = 4 the share vector is [-1, 1, 1, 1]: it contains a negative
entry (so the entries are not non-negative), and the degenerate entry sits at
the leading site while the trailing sites all receive 1. -/
theorem splitSizes_neg_entry :
    splitSizes 2 4 (rawShare uniformW 2 4) = [-1, 1, 1, 1] ∧
    ¬ (∀ x ∈ splitSizes 2 4 (rawShare uniformW 2 4), 0 ≤ x) := by
  have h : rawShare uniformW 2 4 = rawShareZ uniformWZ 2 4 := by
    rw [uniformW_fun, rawShare_eq_Z]
  rw [h]
  exact ⟨by decide, by decide⟩

/-- C7 amended: for every N < M with N ≥ 1 and every raw target function
(hence every recognized method), split_dataset_indices returns without error
a vector of M integers summing to N whose FIRST entry is N - M + 1 (zero when
N = M - 1, negative when N < M - 1) and all remaining entries are 1: the
degenerate shares appear at the leading site, not the trailing ones. -/
theorem splitSizes_lt_sites (raw : ℕ → ℤ) (N M : ℕ)
    (hN : 1 ≤ N) (hNM : N < M) :
    splitSizes N M raw = ((N : ℤ) - M + 1) :: List.replicate (M - 1) 1 := by
  obtain ⟨m, rfl⟩ : ∃ m, M = m + 2 := ⟨M - 2, by omega⟩
  show allocAux raw (m + 1) 0 (N : ℤ) = _
  have hx : imin (imax 1 (raw 0)) ((N : ℤ) - ((m : ℤ) + 1)) =
      (N : ℤ) - ((m : ℤ) + 1) := by
    rw [imin_eq, imax_eq]
    apply min_eq_right
    have h1 : (1 : ℤ) ≤ max 1 (raw 0) := le_max_left _ _
    have h2 : (N : ℤ) - ((m : ℤ) + 1) ≤ 0 := by
      have : (N : ℤ) ≤ (m : ℤ) + 1 := by exact_mod_cast Nat.lt_succ_iff.mp hNM
      omega
    omega
  simp only [allocAux, hx]
  have h3 : (N : ℤ) - ((N : ℤ) - ((m : ℤ) + 1)) = (m : ℤ) + 1 := by ring
  rw [h3, allocAux_replicate raw m 1]
  have h4 : ((N : ℤ) - ((m : ℤ) + 1)) = (N : ℤ) - ((m : ℕ) + 2 : ℕ) + 1 := by
    push_cast; ring
  rw [h4]
  rfl

/-- Witness for the amended C7 at N = 2, M = 4 with the uniform raw
targets: the share vector is (2 - 4 + 1) :: [1, 1, 1] = [-1, 1, 1, 1]. -/
theorem splitSizes_lt_sites_witness :
    splitSizes 2 4 (rawShareZ uniformWZ 2 4) =
      ((2 : ℤ) - 4 + 1) :: List.replicate 3 1 :=
  splitSizes_lt_sites (rawShareZ uniformWZ 2 4) 2 4 (by decide) (by decide)

/-- The counterexample to C8 as stated: for the recognized method "square"
at N = 8 ≥ M = 7 the final share vector is [1, 1, 1, 1, 1, 2, 1], which is
not non-decreasing in the site index (site 5 receives 2, site 6 receives 1):
the clamp that reserves one sample per remaining site cuts the last site
below its predecessor. -/
theorem splitSizes_square_not_monotone :
    splitSizes 8 7 (rawShare squareW 8 7) = [1, 1, 1, 1, 1, 2, 1] ∧
    ¬ List.Pairwise (fun a b : ℤ => a ≤ b)
        (splitSizes 8 7 (rawShare squareW 8 7)) := by
  have h : rawShare squareW 8 7 = rawShareZ squareWZ 8 7 := by
    rw [squareW_fun, rawShare_eq_Z]
  rw [h]
  exact ⟨by decide, by decide⟩

/-- C2 amended: for every N ≥ M ≥ 1, every raw target function (hence every
recognized method) and every shuffle result (a permutation of 0..N-1),
split_dataset_indices produces M index groups whose concatenation is exactly
the shuffled permutation (so group i is the i-th contiguous run), with sizes
equal to the share vector in order, pairwise disjoint, with no duplicate
index, covering exactly the indices below N.  (The added hypothesis N ≥ M is
necessary: for N < M the claim fails, see the counterexample.) -/
theorem splitDatasetIndices_partition (raw : ℕ → ℤ) (N M : ℕ) (perm : List ℕ)
    (hM : 1 ≤ M) (hMN : M ≤ N) (hp : perm.Perm (List.range N)) :
    (clientIndices perm (splitSizes N M raw)).length = M ∧
    (clientIndices perm (splitSizes N M raw)).map (fun g => (g.length : ℤ)) =
      splitSizes N M raw ∧
    (clientIndices perm (splitSizes N M raw)).flatten = perm ∧
    (clientIndices perm (splitSizes N M raw)).flatten.Nodup ∧
    (∀ k, k ∈ (clientIndices perm (splitSizes N M raw)).flatten ↔ k < N) ∧
    List.Pairwise List.Disjoint (clientIndices perm (splitSizes N M raw)) := by
  have hlen : perm.length = N := by
    rw [hp.length_eq, List.length_range]
  have hpos : ∀ x ∈ splitSizes N M raw, 1 ≤ x := by
    unfold splitSizes
    exact allocAux_one_le raw _ _ _ (by omega)
  have hnn : ∀ x ∈ splitSizes N M raw, 0 ≤ x := fun x hx => by
    have := hpos x hx; omega
  have hsum : (splitSizes N M raw).sum = (N : ℤ) := allocAux_sum raw _ _ _
  obtain ⟨hmap, hflat⟩ := sliceRuns_spec perm (splitSizes N M raw) 0
    (le_refl 0) hnn (by rw [hsum]; omega)
  have hflat2 : (clientIndices perm (splitSizes N M raw)).flatten = perm := by
    rw [clientIndices] at *
    rw [hflat, hsum]
    simp only [Int.toNat_zero, List.drop_zero, Int.toNat_natCast]
    rw [← hlen, List.take_length]
  refine ⟨?_, ?_, hflat2, ?_, ?_, ?_⟩
  · rw [clientIndices, sliceRuns_length]
    unfold splitSizes
    rw [allocAux_length]
    omega
  · rw [clientIndices] at *
    have hcast := congrArg (List.map (fun n : ℕ => (n : ℤ))) hmap
    rw [List.map_map, List.map_map] at hcast
    rw [show ((fun n : ℕ => (n : ℤ)) ∘ List.length) =
      (fun g : List ℕ => (g.length : ℤ)) from rfl] at hcast
    rw [hcast]
    rw [show ((fun n : ℕ => (n : ℤ)) ∘ Int.toNat) =
      (fun s : ℤ => ((s.toNat : ℕ) : ℤ)) from rfl]
    refine (List.map_congr_left ?_).trans (List.map_id _)
    intro a ha
    exact Int.toNat_of_nonneg (hnn a ha)
  · rw [hflat2, hp.nodup_iff]
    exact List.nodup_range N
  · intro k
    rw [hflat2, hp.mem_iff, List.mem_range]
  · have hnd : (clientIndices perm (splitSizes N M raw)).flatten.Nodup := by
      rw [hflat2, hp.nodup_iff]
      exact List.nodup_range N
    exact (List.nodup_flatten.mp hnd).2

/-- Witness for the amended C2 at N = 3, M = 2, uniform raw targets, with
the shuffle result [2, 0, 1]: the groups are [[2], [0, 1]]. -/
theorem splitDatasetIndices_partition_witness :
    (clientIndices [2, 0, 1] (splitSizes 3 2 (rawShareZ uniformWZ 3 2))).length
      = 2 ∧
    (clientIndices [2, 0, 1] (splitSizes 3 2 (rawShareZ uniformWZ 3 2))).map
      (fun g => (g.length : ℤ)) = splitSizes 3 2 (rawShareZ uniformWZ 3 2) ∧
    (clientIndices [2, 0, 1]
      (splitSizes 3 2 (rawShareZ uniformWZ 3 2))).flatten = [2, 0, 1] ∧
    (clientIndices [2, 0, 1]
      (splitSizes 3 2 (rawShareZ uniformWZ 3 2))).flatten.Nodup ∧
    (∀ k, k ∈ (clientIndices [2, 0, 1]
      (splitSizes 3 2 (rawShareZ uniformWZ 3 2))).flatten ↔ k < 3) ∧
    List.Pairwise List.Disjoint
      (clientIndices [2, 0, 1] (splitSizes 3 2 (rawShareZ uniformWZ 3 2))) :=
  splitDatasetIndices_partition (rawShareZ uniformWZ 3 2) 3 2 [2, 0, 1]
    (by decide) (by decide) (by decide)

/-- The counterexample to C2 as stated (no N ≥ M hypothesis): for the
recognized method "uniform" at N = 2, M = 4, with the valid shuffle result
[0, 1], the computed groups are [[0], [], [0], [1]]: index 0 appears in two
groups (not pairwise disjoint, duplicate index) and the group sizes do not
match the share vector [-1, 1, 1, 1]. -/
theorem clientIndices_not_partition :
    ([0, 1] : List ℕ).Perm (List.range 2) ∧
    clientIndices [0, 1] (splitSizes 2 4 (rawShare uniformW 2 4)) =
      [[0], [], [0], [1]] ∧
    ¬ (clientIndices [0, 1]
        (splitSizes 2 4 (rawShare uniformW 2 4))).flatten.Nodup ∧
    (clientIndices [0, 1] (splitSizes 2 4 (rawShare uniformW 2 4))).map
        (fun g => (g.length : ℤ)) ≠ splitSizes 2 4 (rawShare uniformW 2 4) ∧
    ¬ List.Pairwise List.Disjoint
        (clientIndices [0, 1] (splitSizes 2 4 (rawShare uniformW 2 4))) := by
  have h : rawShare uniformW 2 4 = rawShareZ uniformWZ 2 4 := by
    rw [uniformW_fun, rawShare_eq_Z]
  rw [h]
  have hg : clientIndices [0, 1] (splitSizes 2 4 (rawShareZ uniformWZ 2 4)) =
      [[0], [], [0], [1]] := by decide
  refine ⟨by decide, hg, by decide, by decide, ?_⟩
  rw [hg]
  intro hpw
  have hd : List.Disjoint [0] [(0 : ℕ)] := by
    rcases hpw with _ | ⟨hrel, _⟩
    exact hrel [0] (by simp)
  exact hd (List.mem_singleton.mpr rfl) (List.mem_singleton.mpr rfl)

/-- C8 amended: what is non-decreasing in the site index is the expected
(pre-clamp) share `int(N * w[i] / total)`: for every weight function that is
non-decreasing at site i with positive total weight — which covers the
linear, square and exponential weight vectors — the raw target of site i is
at most that of site i + 1.  (The final clamped share vector is NOT always
non-decreasing; see the counterexample.) -/
theorem rawShare_mono (w : ℕ → ℚ) (N M i : ℕ)
    (hw : w i ≤ w (i + 1)) (hT : 0 < totalW w M) :
    rawShare w N M i ≤ rawShare w N M (i + 1) := by
  apply Int.floor_le_floor
  have hN : (0 : ℚ) ≤ (N : ℚ) := Nat.cast_nonneg N
  gcongr

/-- Witness for the amended C8: the square weights at N = 8, M = 7, i = 3. -/
theorem rawShare_mono_witness :
    rawShare squareW 8 7 3 ≤ rawShare squareW 8 7 4 :=
  rawShare_mono squareW 8 7 3 (by norm_num [squareW]) (by
    norm_num [totalW, List.range_succ, squareW])

theorem splitAndDistribute_reaches (env : DistEnv) (h : ReachesTransfer env) :
    splitAndDistribute env =
      ⟨[Eff.queryInventory] ++ shardWrites env.clients ++
          [Eff.deleteDir, Eff.createDir] ++ (transferPhase env env.clients).1,
        RunExit.completed,
        (transferPhase env env.clients).2⟩ := by
  obtain ⟨⟨h1, h2, h3, h4, h5, h6, h7⟩, h8, h9⟩ := h
  unfold splitAndDistribute
  rw [if_neg (by omega), if_neg (by omega), if_neg (by simp [h3]),
    if_neg (by simp [h4]), if_neg (by simp [h5]), if_neg (by simp [h6]),
    if_neg (by simp [h7]), if_neg (by simp [h8]), if_neg (by simp [h9])]

theorem transferPhase_copyTrain_mem (env : DistEnv) :
    ∀ (cs : List String), ∀ c ∈ cs,
      Eff.copyTrain c ∈ (transferPhase env cs).1 := by
  intro cs
  induction cs with
  | nil => intro c hc; simp at hc
  | cons d rest ih =>
    intro c hc
    rcases List.mem_cons.mp hc with rfl | hc
    · by_cases hd : env.copyTrainOk c <;>
        simp [transferPhase, runClientCopies, hd]
    · simp only [transferPhase, List.mem_append]
      exact Or.inr (ih c hc)

theorem transferPhase_copyTest_mem (env : DistEnv) :
    ∀ (cs : List String) (c : String),
      Eff.copyTest c ∈ (transferPhase env cs).1 ↔
        (c ∈ cs ∧ env.copyTrainOk c = true) := by
  intro cs
  induction cs with
  | nil => intro c; simp [transferPhase]
  | cons d rest ih =>
    intro c
    by_cases hd : env.copyTrainOk d <;> by_cases hcd : c = d <;>
      simp [transferPhase, runClientCopies, hd, hcd, ih c, ih d]

theorem transferPhase_failed_mem (env : DistEnv) :
    ∀ (cs : List String), ∀ c ∈ cs,
      (env.copyTrainOk c = false ∨ env.copyTestOk c = false) →
        c ∈ (transferPhase env cs).2 := by
  intro cs
  induction cs with
  | nil => intro c hc; simp at hc
  | cons d rest ih =>
    intro c hc hfail
    rcases List.mem_cons.mp hc with rfl | hc
    · have hb : (runClientCopies env c).2 = true := by
        unfold runClientCopies
        rcases hfail with h | h <;> by_cases hd : env.copyTrainOk c <;>
          simp_all
      simp [transferPhase, hb]
    · simp only [transferPhase, List.mem_append]
      exact Or.inr (ih c hc hfail)

/-- C3: once the run reaches the per-client transfer phase, a failure of one
client's copy job (modelled by its copy command exiting non-zero) is caught
and logged: the run still completes, the train copy of EVERY client in the
list is attempted, and every client with a failed copy is recorded in the
error log — processing continues with subsequent clients instead of
aborting. -/
theorem splitAndDistribute_continues (env : DistEnv) (h : ReachesTransfer env) :
    (splitAndDistribute env).exit = RunExit.completed ∧
    (∀ c ∈ env.clients, Eff.copyTrain c ∈ (splitAndDistribute env).effects) ∧
    (∀ c ∈ env.clients,
      (env.copyTrainOk c = false ∨ env.copyTestOk c = false) →
        c ∈ (splitAndDistribute env).failedClients) := by
  rw [splitAndDistribute_reaches env h]
  refine ⟨rfl, ?_, ?_⟩
  · intro c hc
    have hm := transferPhase_copyTrain_mem env env.clients c hc
    simp [shardWrites, hm]
  · intro c hc hf
    have hm := transferPhase_failed_mem env env.clients c hc hf
    simpa using hm

/-- Witness for C3: in the five-client environment where client s3's copy
fails, the run completes, s3's train copy was attempted, and s3 is in the
failure log. -/
theorem splitAndDistribute_continues_witness :
    (splitAndDistribute envE).exit = RunExit.completed ∧
    Eff.copyTrain "s3" ∈ (splitAndDistribute envE).effects ∧
    "s3" ∈ (splitAndDistribute envE).failedClients :=
  have h := splitAndDistribute_continues envE (by decide)
  ⟨h.1, h.2.1 "s3" (by decide), h.2.2 "s3" (by decide) (Or.inl (by decide))⟩

/-- The counterexample to C4 as stated: both copy commands for a client sit
in one try block (lines 217-220), so when siteA's private-shard (train) copy
fails, the shared evaluation-shard (test) copy for siteA is NOT attempted:
no copyTest effect for siteA appears in the trace even though the run
completes. -/
theorem splitAndDistribute_testCopy_skipped :
    envC4.copyTrainOk "siteA" = false ∧
    Eff.copyTrain "siteA" ∈ (splitAndDistribute envC4).effects ∧
    Eff.copyTest "siteA" ∉ (splitAndDistribute envC4).effects ∧
    (splitAndDistribute envC4).exit = RunExit.completed := by decide

/-- C4 amended: failure isolation is per-node but the two jobs of one node
are sequential in a single try block: for every client its train copy is
always attempted, while its test copy is attempted exactly when its train
copy succeeded (a failed test copy cannot prevent the train copy, which has
already run, and neither failure affects other clients). -/
theorem splitAndDistribute_per_node_isolation (env : DistEnv)
    (h : ReachesTransfer env) :
    ∀ c ∈ env.clients,
      Eff.copyTrain c ∈ (splitAndDistribute env).effects ∧
      (Eff.copyTest c ∈ (splitAndDistribute env).effects ↔
        env.copyTrainOk c = true) := by
  intro c hc
  rw [splitAndDistribute_reaches env h]
  constructor
  · have hm := transferPhase_copyTrain_mem env env.clients c hc
    simp [shardWrites, hm]
  · have hm := transferPhase_copyTest_mem env env.clients c
    simp [shardWrites, hm, hc]

/-- Witness for the amended C4 at client siteB of the two-client
environment. -/
theorem splitAndDistribute_per_node_isolation_witness :
    Eff.copyTrain "siteB" ∈ (splitAndDistribute envC4).effects ∧
    (Eff.copyTest "siteB" ∈ (splitAndDistribute envC4).effects ↔
      envC4.copyTrainOk "siteB" = true) :=
  splitAndDistribute_per_node_isolation envC4 (by decide) "siteB" (by decide)

/-- C5: if the fleet-wide reset phase fails (the remote delete or the
recreate command raises), the run ends with the reset failure and no copy
job is attempted for any client. -/
theorem splitAndDistribute_resetFail (env : DistEnv) (h : ReachesReset env)
    (hfail : env.deleteOk = false ∨ env.createOk = false) :
    (splitAndDistribute env).exit = RunExit.resetFailed ∧
    ∀ c, Eff.copyTrain c ∉ (splitAndDistribute env).effects ∧
      Eff.copyTest c ∉ (splitAndDistribute env).effects := by
  obtain ⟨h1, h2, h3, h4, h5, h6, h7⟩ := h
  unfold splitAndDistribute
  rw [if_neg (by omega), if_neg (by omega), if_neg (by simp [h3]),
    if_neg (by simp [h4]), if_neg (by simp [h5]), if_neg (by simp [h6]),
    if_neg (by simp [List.length_eq_zero, h7])]
  rcases hfail with hf | hf
  · rw [if_pos hf]
    exact ⟨rfl, fun c => ⟨by simp [shardWrites], by simp [shardWrites]⟩⟩
  · by_cases hd : env.deleteOk = false
    · rw [if_pos hd]
      exact ⟨rfl, fun c => ⟨by simp [shardWrites], by simp [shardWrites]⟩⟩
    · rw [if_neg hd, if_pos hf]
      exact ⟨rfl, fun c => ⟨by simp [shardWrites], by simp [shardWrites]⟩⟩

/-- Witness for C5: the delete command fails in the two-client environment;
the run ends in the reset failure and client s1 is never targeted by a copy
job. -/
theorem splitAndDistribute_resetFail_witness :
    (splitAndDistribute envD).exit = RunExit.resetFailed ∧
    Eff.copyTrain "s1" ∉ (splitAndDistribute envD).effects ∧
    Eff.copyTest "s1" ∉ (splitAndDistribute envD).effects :=
  have h := splitAndDistribute_resetFail envD (by decide) (Or.inl (by decide))
  ⟨h.1, (h.2 "s1").1, (h.2 "s1").2⟩

/-- The counterexample to C6 as stated: the source returns no report and
prints the SAME unconditional success message whether every client received
its files or not.  With siteA's train copy failing, the failure was logged,
the run completed — and the user-visible summary is identical to that of
the run in which every copy succeeded, so it does not distinguish full from
partial success. -/
theorem splitAndDistribute_summary_indistinct :
    (splitAndDistribute envC4).failedClients = ["siteA"] ∧
    (splitAndDistribute envAllOk).failedClients = [] ∧
    summaryLine (splitAndDistribute envC4) =
      summaryLine (splitAndDistribute envAllOk) ∧
    (splitAndDistribute envC4).exit = RunExit.completed := by decide

/-- C6 amended: after the transfer phase the run always ends the same way:
exit is `completed` and the summary is the unconditional success message,
regardless of per-client failures; the only per-client outcome information
is the stderr log accumulated as failures happen (every client with a failed
copy is recorded there), and no report value is returned. -/
theorem splitAndDistribute_unconditional_success (env : DistEnv)
    (h : ReachesTransfer env) :
    (splitAndDistribute env).exit = RunExit.completed ∧
    summaryLine (splitAndDistribute env) =
      some "Successfully distributed all files." ∧
    ∀ c ∈ env.clients,
      (env.copyTrainOk c = false ∨ env.copyTestOk c = false) →
        c ∈ (splitAndDistribute env).failedClients := by
  rw [splitAndDistribute_reaches env h]
  refine ⟨rfl, rfl, ?_⟩
  intro c hc hf
  have hm := transferPhase_failed_mem env env.clients c hc hf
  simpa using hm

/-- Witness for the amended C6 in the environment where siteA's train copy
fails. -/
theorem splitAndDistribute_unconditional_success_witness :
    (splitAndDistribute envC4).exit = RunExit.completed ∧
    summaryLine (splitAndDistribute envC4) =
      some "Successfully distributed all files." ∧
    "siteA" ∈ (splitAndDistribute envC4).failedClients :=
  have h := splitAndDistribute_unconditional_success envC4 (by decide)
  ⟨h.1, h.2.1, h.2.2 "siteA" (by decide) (Or.inl (by decide))⟩

/-- C9: if the training data/label lengths differ, or the test data/label
lengths differ, split_and_distribute returns immediately with an empty
effect trace: no inventory query, no shard write, no remote command. -/
theorem splitAndDistribute_length_mismatch (env : DistEnv)
    (h : env.trainDataLen ≠ env.trainLabelsLen ∨
      env.testDataLen ≠ env.testLabelsLen) :
    (splitAndDistribute env).effects = [] ∧
    (splitAndDistribute env).exit ≠ RunExit.completed := by
  unfold splitAndDistribute
  by_cases h1 : env.trainDataLen ≠ env.trainLabelsLen
  · rw [if_pos h1]
    exact ⟨rfl, by decide⟩
  · have h2 : env.testDataLen ≠ env.testLabelsLen := by tauto
    rw [if_neg h1, if_pos h2]
    exact ⟨rfl, by decide⟩

/-- Witness for C9 with 3 training samples and 4 training labels. -/
theorem splitAndDistribute_length_mismatch_witness :
    (splitAndDistribute envMis).effects = [] ∧
    (splitAndDistribute envMis).exit ≠ RunExit.completed :=
  splitAndDistribute_length_mismatch envMis (Or.inl (by decide))

end FedSplit
